import Mathlib

/-!
Shallow embedding of the `decimal` Go package (`src/decimal.go`): a fixed-point
decimal built on an unsigned 256-bit magnitude (`value : *uint256.Int`) and an
8-bit scale (`mantissa : uint8`).  Machine integers are modelled as `ℕ` (resp.
`ℤ` for Go's `*big.Int`) with explicit reduction modulo `2 ^ 256` wherever the
Go code wraps.  Go methods that mutate their receiver are modelled as pure
functions returning the receiver's post-state; `Div` additionally returns the
returned pointer's value, since its zero-divisor branch returns a fresh object
without touching the receiver.
-/

namespace DecimalGo

/-- `2 ^ 256`, the wraparound modulus of the `uint256.Int` magnitude. -/
def U256Mod : ℕ := 2 ^ 256

/-- The Go struct `Decimal{ value *uint256.Int; mantissa uint8 }`.
`value` ranges over `[0, 2^256)` and `mantissa` over `[0, 256)` in Go; the
embedding uses `ℕ` and states bounds as hypotheses where they matter. -/
structure Decimal where
  value : ℕ
  mantissa : ℕ
deriving DecidableEq, Repr

/-- Modelled from the spec: the power-of-ten provider `ExpScale` is code of the
repository that is not under `src/` (only its callers are).  Per §6 it returns
`10 ^ exponent` as a 256-bit magnitude, wrapped modulo `2 ^ 256` when the power
exceeds the range. -/
def ExpScale (n : ℕ) : ℕ := 10 ^ n % U256Mod

/-- `func (d *Decimal) Rescale(mantissa uint8) *Decimal` (nil-receiver branch
omitted: the embedding has no nil values).  Scaling up multiplies by
`ExpScale` with `uint256.Mul`'s wraparound; scaling down divides truncating
(`uint256.Div`, which yields 0 on a zero divisor, as does `Nat.div`). -/
def Rescale (d : Decimal) (mantissa : ℕ) : Decimal :=
  if mantissa = d.mantissa then d
  else if d.mantissa < mantissa then
    ⟨d.value * ExpScale (mantissa - d.mantissa) % U256Mod, mantissa⟩
  else
    ⟨d.value / ExpScale (d.mantissa - mantissa), mantissa⟩

/-- The shared prologue of `Eq`/`Gt`/`Lt`/`Add`/`Sub`/`Mul`: take defensive
copies `xx := NewDecimal(d)`, `yy := NewDecimal(y)` (value-level identities
here) and rescale the copy with the smaller mantissa up to the larger one. -/
def align (d y : Decimal) : Decimal × Decimal :=
  if d.mantissa < y.mantissa then (Rescale d y.mantissa, y)
  else if y.mantissa < d.mantissa then (d, Rescale y d.mantissa)
  else (d, y)

/-- `func (d *Decimal) Eq(y *Decimal) bool`: align, then `uint256.Eq`. -/
def Eq (d y : Decimal) : Bool :=
  decide ((align d y).1.value = (align d y).2.value)

/-- `func (d *Decimal) Gt(y *Decimal) bool`: align, then `uint256.Gt`. -/
def Gt (d y : Decimal) : Bool :=
  decide ((align d y).2.value < (align d y).1.value)

/-- `func (d *Decimal) Lt(y *Decimal) bool`: align, then `uint256.Lt`. -/
def Lt (d y : Decimal) : Bool :=
  decide ((align d y).1.value < (align d y).2.value)

/-- `func NewDecimalZero() *Decimal`. -/
def NewDecimalZero : Decimal := ⟨0, 0⟩

/-- `var Zero = NewDecimalZero()`, the package-level shared zero. -/
def Zero : Decimal := NewDecimalZero

/-- `func (d *Decimal) Add(y *Decimal) *Decimal`: align, add magnitudes with
`uint256.Add` (wraps mod `2^256`), result mantissa is the aligned mantissa. -/
def Add (d y : Decimal) : Decimal :=
  ⟨((align d y).1.value + (align d y).2.value) % U256Mod, (align d y).1.mantissa⟩

/-- Wrapping subtraction of two `uint256.Int` magnitudes: `uint256.Sub`
computes `x - y` modulo `2 ^ 256`. -/
def subU256 (x y : ℕ) : ℕ := (((x : ℤ) - (y : ℤ)) % (U256Mod : ℤ)).toNat

/-- `func (d *Decimal) Sub(y *Decimal) *Decimal`: align, subtract magnitudes
with `uint256.Sub` (wraps mod `2^256`), result mantissa is the aligned one. -/
def Sub (d y : Decimal) : Decimal :=
  ⟨subU256 (align d y).1.value (align d y).2.value, (align d y).1.mantissa⟩

/-- `func (d *Decimal) Mul(y *Decimal) *Decimal`: align, multiply magnitudes
with `uint256.Mul` (wraps mod `2^256`); `d.mantissa = xx.mantissa + yy.mantissa`
is a `uint8` sum, hence reduced mod `2^8`. -/
def Mul (d y : Decimal) : Decimal :=
  ⟨(align d y).1.value * (align d y).2.value % U256Mod,
   ((align d y).1.mantissa + (align d y).2.mantissa) % 256⟩

/-- `const defaultDivScale = 20`. -/
def defaultDivScale : ℕ := 20

/-- `func (d *Decimal) Div(y *Decimal) *Decimal`.  Returns the pair
(receiver state after the call, returned value): the zero-divisor guard
returns a fresh zero without writing to `d`, every other path assigns into
`d` and returns it.  `e` is the `int64` expression
`int64(xx.mantissa) - int64(yy.mantissa) - int64(defaultDivScale)`;
`uint256.Div` truncates toward zero and yields 0 on a zero divisor, matching
`Nat.div`. -/
def Div (d y : Decimal) : Decimal × Decimal :=
  if Eq y Zero then (d, NewDecimalZero)
  else
    let e : ℤ := (d.mantissa : ℤ) - (y.mantissa : ℤ) - (defaultDivScale : ℤ)
    if e < 0 then
      let xv := d.value * ExpScale (-e).toNat % U256Mod
      let r : Decimal := ⟨xv / y.value, defaultDivScale⟩
      (r, r)
    else
      let yv := y.value * ExpScale e.toNat % U256Mod
      let r : Decimal := ⟨d.value / yv, d.mantissa⟩
      (r, r)

/-- `strings.Split(value, ".")` on the character sequence of a Go string:
splits at every `'.'`, keeping empty fields, always returning at least one
field. -/
def splitOnDot : List Char → List (List Char)
  | [] => [[]]
  | c :: cs =>
    if c = '.' then [] :: splitOnDot cs
    else
      match splitOnDot cs with
      | [] => [[c]]
      | p :: ps => (c :: p) :: ps

/-- The "drop suffix zeros" loop of `FromString`: removes the maximal run of
trailing `'0'` characters from the fractional part. -/
def dropTrailingZeros (l : List Char) : List Char :=
  (l.reverse.dropWhile (· = '0')).reverse

/-- Value of a run of decimal digit characters, most significant first. -/
def digitsVal (l : List Char) : ℕ :=
  l.foldl (fun acc ch => acc * 10 + (ch.toNat - 48)) 0

/-- The digit-run scan of `big.Int.SetString(s, 10)` after the optional sign
has been consumed: a nonempty run of ASCII decimal digits yields its value
(negated when the sign was `'-'`); anything else fails (`none`). -/
def bigSetStringDigits (ds : List Char) (neg : Bool) : Option ℤ :=
  if ds.isEmpty then none
  else if ds.all Char.isDigit then
    some (if neg then -(digitsVal ds : ℤ) else (digitsVal ds : ℤ))
  else none

/-- `big.Int.SetString(s, 10)`: an optional leading `'-'` or `'+'` sign
followed by a nonempty run of ASCII decimal digits; anything else fails
(`none`). -/
def bigSetString : List Char → Option ℤ
  | [] => none
  | ch :: rest =>
    if ch = '-' then bigSetStringDigits rest true
    else if ch = '+' then bigSetStringDigits rest false
    else bigSetStringDigits (ch :: rest) false

/-- `uint256.Int.SetFromBig(b)`: stores `b` reduced modulo `2 ^ 256`
(negative values wrap) and reports overflow exactly when `|b| ≥ 2 ^ 256`
(more than four 64-bit words).  Returns (stored magnitude, overflow flag). -/
def setFromBigU256 (v : ℤ) : ℕ × Bool :=
  ((v % (U256Mod : ℤ)).toNat, decide (U256Mod ≤ v.natAbs))

/-- The tail of `FromString` after the digit string is assembled:
`d.value.SetFromBig(valBig)` always stores the (wrapped) magnitude; on
overflow the function returns `false` with `d.mantissa` untouched, otherwise
it sets `d.mantissa` and returns `true`. -/
def applySetFromBig (d : Decimal) (v : ℤ) (mant : ℕ) : Decimal × Bool :=
  if (setFromBigU256 v).2 then (⟨(setFromBigU256 v).1, d.mantissa⟩, false)
  else (⟨(setFromBigU256 v).1, mant⟩, true)

/-- The body of `FromString` after `strings.Split`: three or more fields
fail, one field is parsed whole with mantissa 0, two fields have the
fractional field length-checked against 255 (`math.MaxUint8`) before trailing
zeros are stripped, and the concatenation of the fields is parsed with
mantissa = stripped fractional length. -/
def fromParts (d : Decimal) : List (List Char) → Decimal × Bool
  | [s0] =>
    (match bigSetString s0 with
     | none => (d, false)
     | some v => applySetFromBig d v 0)
  | [s0, s1] =>
    if 255 < s1.length then (d, false)
    else
      match bigSetString (s0 ++ dropTrailingZeros s1) with
      | none => (d, false)
      | some v => applySetFromBig d v (dropTrailingZeros s1).length
  | _ => (d, false)

/-- `func (d *Decimal) FromString(value string) bool`, as (receiver state
after the call, success flag).  The empty string sets `d.value` to zero and
returns `true` without touching `d.mantissa`; every other input is split on
`'.'` and handled by `fromParts`. -/
def FromString (d : Decimal) (value : String) : Decimal × Bool :=
  if value = "" then ({ d with value := 0 }, true)
  else fromParts d (splitOnDot value.toList)

/-- The arbitrary-precision value `fromParts` hands to `SetFromBig` for a
given field list, `none` when the parse fails before that call (three or more
fields, an over-long fractional field, or a `SetString` failure). -/
def partsBigValue : List (List Char) → Option ℤ
  | [s0] => bigSetString s0
  | [s0, s1] =>
    if 255 < s1.length then none
    else bigSetString (s0 ++ dropTrailingZeros s1)
  | _ => none

/-- The `valBig` intermediate of `FromString`: the arbitrary-precision
integer the Go code hands to `d.value.SetFromBig` when parsing the input
reaches that call, `none` when the parse never reaches it (the empty input
returns early, and grammar failures abort first). -/
def parsedBigValue (s : String) : Option ℤ :=
  if s = "" then none else partsBigValue (splitOnDot s.toList)

/-- `func NewDecimalFromString(val string) (*Decimal, bool)`. -/
def NewDecimalFromString (val : String) : Option Decimal :=
  if (FromString NewDecimalZero val).2 then some (FromString NewDecimalZero val).1
  else none

/-- `func NewDecimalFromBig(value *big.Int, mantissa uint8) *Decimal`:
`nil` is replaced by a fresh zero big integer; `uint256.FromBig` wraps the
value mod `2 ^ 256` and reports overflow iff `|value| ≥ 2 ^ 256`, in which
case a fresh zero Decimal (mantissa 0) is returned instead. -/
def NewDecimalFromBig (value : Option ℤ) (mantissa : ℕ) : Decimal :=
  let v : ℤ := value.getD 0
  if (setFromBigU256 v).2 then NewDecimalZero
  else ⟨(setFromBigU256 v).1, mantissa⟩

/-- `func NewDecimalFromUint64(value uint64) *Decimal`: the `uint64` is cast
to `int64` (values `≥ 2^63` reinterpret as negatives), boxed in a `big.Int`,
and stored through `SetFromBig` (wrapping mod `2 ^ 256`, overflow ignored)
with mantissa 0. -/
def NewDecimalFromUint64 (value : ℕ) : Decimal :=
  let i64 : ℤ := if value < 2 ^ 63 then (value : ℤ) else (value : ℤ) - 2 ^ 64
  ⟨(setFromBigU256 i64).1, 0⟩

/-! ### Helper lemmas about `Rescale` and `align` -/

lemma Rescale_mantissa (d : Decimal) (m : ℕ) : (Rescale d m).mantissa = m := by
  unfold Rescale
  split_ifs with h1 h2
  · exact h1.symm
  · rfl
  · rfl

lemma Rescale_self (d : Decimal) : Rescale d d.mantissa = d := by
  simp [Rescale]

/-- `align` rescales both operands to the larger mantissa (the one already at
the larger mantissa is untouched, and `Rescale` to the current mantissa is the
identity, so only the smaller-mantissa copy is actually rescaled). -/
lemma align_eq (a b : Decimal) :
    align a b = (Rescale a (max a.mantissa b.mantissa),
                 Rescale b (max a.mantissa b.mantissa)) := by
  unfold align
  rcases lt_trichotomy a.mantissa b.mantissa with h | h | h
  · rw [if_pos h, max_eq_right h.le, Rescale_self b]
  · rw [if_neg (by omega), if_neg (by omega), h, max_self, ← h, Rescale_self,
      h, Rescale_self]
  · rw [if_neg (by omega), if_pos h, max_eq_left h.le, Rescale_self]

/-- Multiplying by the wrapped power of ten and reducing is the same as
multiplying by the exact power of ten and reducing. -/
lemma mul_ExpScale_mod (x k : ℕ) :
    x * ExpScale k % U256Mod = x * 10 ^ k % U256Mod := by
  unfold ExpScale
  conv_rhs => rw [Nat.mul_mod]
  rw [Nat.mul_mod, Nat.mod_mod_of_dvd _ dvd_rfl]

/-! ### Claim theorems -/

/-- C1: if the divisor compares equal to the shared `Zero` (the `Eq` rule),
`Div` leaves the receiver's magnitude and mantissa untouched and returns a
fresh exact-zero Decimal (magnitude 0, mantissa 0).  `Div` has no error
channel at all: the returned pair is its entire observable behaviour. -/
theorem Div_zero_divisor (d y : Decimal) (h : Eq y Zero = true) :
    Div d y = (d, ⟨0, 0⟩) := by
  simp [Div, h, NewDecimalZero]

theorem Div_zero_divisor_witness :
    Eq ⟨0, 3⟩ Zero = true ∧ Div ⟨5, 2⟩ ⟨0, 3⟩ = (⟨5, 2⟩, ⟨0, 0⟩) :=
  ⟨by decide, Div_zero_divisor ⟨5, 2⟩ ⟨0, 3⟩ (by decide)⟩

/-- C2 (counterexample): the claim predicts scale `scale_a + scale_b`, i.e.
scale 3 with magnitude 50 on the decimals parsed from `"2.5"` and `"0.2"`,
and no pre-rescale of the operands; the code yields scale 2 there, and on
operands of distinct scales (`2.5` and `0.02`) it pre-rescales, yielding
magnitude 500 and scale 4 instead of the predicted magnitude 50, scale 3. -/
theorem Mul_claim_counterexample :
    Mul (FromString NewDecimalZero "2.5").1 (FromString NewDecimalZero "0.2").1
        = ⟨50, 2⟩ ∧
    (2 : ℕ) ≠ 3 ∧
    Mul ⟨25, 1⟩ ⟨2, 2⟩ = ⟨500, 4⟩ ∧
    (Decimal.mk 500 4) ≠ ⟨50, 3⟩ := by
  refine ⟨by decide, by decide, by decide, by decide⟩

/-- C2 (amended): `Mul` first rescales defensive copies of both operands to
the common larger mantissa, multiplies the aligned magnitudes modulo
`2 ^ 256`, and sets the result mantissa to the sum of the two aligned
mantissas reduced to 8 bits, i.e. `2 * max scale_a scale_b % 256`; on the
decimals parsed from `"2.5"` and `"0.2"` this gives magnitude 50, scale 2. -/
theorem Mul_aligned_spec :
    (∀ a b : Decimal,
      Mul a b =
        ⟨(Rescale a (max a.mantissa b.mantissa)).value *
           (Rescale b (max a.mantissa b.mantissa)).value % U256Mod,
         2 * max a.mantissa b.mantissa % 256⟩) ∧
    Mul (FromString NewDecimalZero "2.5").1 (FromString NewDecimalZero "0.2").1
        = ⟨50, 2⟩ := by
  refine ⟨fun a b => ?_, by decide⟩
  rw [Mul, align_eq, Rescale_mantissa, Rescale_mantissa]
  rw [two_mul]

/-- C3: for a divisor that does not compare equal to zero, `Div` computes
`e = scale_a - scale_b - 20` over ℤ; if `e < 0` it multiplies the dividend's
magnitude by `10 ^ (-e)` (wrapped modulo `2 ^ 256`, per the engine's
wraparound policy and the power-of-ten provider) and sets the result scale to
20, otherwise it multiplies the divisor's magnitude by `10 ^ e` (likewise
wrapped) and sets the result scale to `scale_a`; in both branches the result
magnitude is the truncating unsigned quotient of the adjusted magnitudes. -/
theorem Div_general (a b : Decimal) (h : Eq b Zero = false) :
    (Div a b).2 =
      if (a.mantissa : ℤ) - (b.mantissa : ℤ) - 20 < 0 then
        ⟨(a.value * 10 ^ (-((a.mantissa : ℤ) - (b.mantissa : ℤ) - 20)).toNat
            % U256Mod) / b.value, 20⟩
      else
        ⟨a.value / (b.value * 10 ^ ((a.mantissa : ℤ) - (b.mantissa : ℤ) - 20).toNat
            % U256Mod), a.mantissa⟩ := by
  rw [Div]
  rw [if_neg (by simp [h])]
  simp only [defaultDivScale, Nat.cast_ofNat, mul_ExpScale_mod]
  split <;> rfl

theorem Div_general_witness :
    Eq ⟨3, 0⟩ Zero = false ∧
    (Div ⟨1, 0⟩ ⟨3, 0⟩).2 = ⟨33333333333333333333, 20⟩ :=
  ⟨by decide, by rw [Div_general ⟨1, 0⟩ ⟨3, 0⟩ (by decide)]; decide⟩

/-- C5 (code evaluated at the failing input): `NewDecimalFromUint64` routes
the `uint64` through an `int64` cast, so `2 ^ 63` is reinterpreted as
`-(2 ^ 63)` and stored wrapped as `2 ^ 256 - 2 ^ 64 + 2 ^ 63`, not `2 ^ 63`:
the conversion is not lossless above `2 ^ 63 - 1`, contradicting the spec's
"lossless" conversion adapter. -/
theorem NewDecimalFromUint64_bug :
    NewDecimalFromUint64 (2 ^ 63) = ⟨2 ^ 256 - 2 ^ 64 + 2 ^ 63, 0⟩ ∧
    (2 ^ 256 - 2 ^ 64 + 2 ^ 63 : ℕ) ≠ 2 ^ 63 := by
  refine ⟨by decide, by decide⟩

/-- C7 (counterexample): parsing the empty string succeeds and zeroes the
magnitude but does not reset the mantissa: a receiver at mantissa 3 stays at
mantissa 3, so the result is not "exact zero with scale 0" as claimed. -/
theorem FromString_empty_counterexample :
    FromString ⟨5, 3⟩ "" = (⟨0, 3⟩, true) ∧ (Decimal.mk 0 3) ≠ ⟨0, 0⟩ := by
  refine ⟨by decide, by decide⟩

/-- C7 (amended): for every receiver, `FromString ""` succeeds and sets the
magnitude to 0 while leaving the mantissa unchanged (so only a receiver whose
mantissa was already 0 ends up as exact zero with scale 0). -/
theorem FromString_empty (d : Decimal) : FromString d "" = (⟨0, d.mantissa⟩, true) := by
  simp [FromString]

/-- C9: `Sub` rescales defensive copies of both operands to the larger of the
two mantissas, subtracts the aligned magnitudes modulo `2 ^ 256` (no underflow
error), and sets the result mantissa to the aligned mantissa; in particular
`"1" - "2"` wraps to magnitude `2 ^ 256 - 1` at scale 0. -/
theorem Sub_aligned_spec :
    (∀ a b : Decimal,
      Sub a b =
        ⟨subU256 (Rescale a (max a.mantissa b.mantissa)).value
                 (Rescale b (max a.mantissa b.mantissa)).value,
         max a.mantissa b.mantissa⟩) ∧
    Sub (FromString NewDecimalZero "1").1 (FromString NewDecimalZero "2").1
        = ⟨2 ^ 256 - 1, 0⟩ := by
  refine ⟨fun a b => ?_, by decide⟩
  rw [Sub, align_eq, Rescale_mantissa]

/-- C10 (counterexample): `NewDecimalFromBig` on a `nil` value keeps the
requested mantissa (yielding `⟨0, 5⟩`, not the exact-zero `⟨0, 0⟩`), and a
negative value — which does not fit the unsigned 256-bit range — is stored
wrapped modulo `2 ^ 256` with the requested mantissa rather than replaced by
zero. -/
theorem NewDecimalFromBig_counterexample :
    NewDecimalFromBig none 5 = ⟨0, 5⟩ ∧ (Decimal.mk 0 5) ≠ ⟨0, 0⟩ ∧
    NewDecimalFromBig (some (-5)) 7 = ⟨2 ^ 256 - 5, 7⟩ := by
  refine ⟨by decide, by decide, by decide⟩

/-- C10 (amended): `NewDecimalFromBig` silently returns the exact-zero
Decimal with mantissa 0 — discarding the requested mantissa, with no failure
signal — exactly when the value's absolute value is at least `2 ^ 256` (the
`uint256.FromBig` overflow condition); every value of absolute value below
`2 ^ 256`, negative values included, is instead stored wrapped modulo
`2 ^ 256` with the requested mantissa, and a `nil` value is treated as zero,
likewise keeping the requested mantissa. -/
theorem NewDecimalFromBig_overflow_nil (v : ℤ) (m : ℕ) :
    (U256Mod ≤ v.natAbs → NewDecimalFromBig (some v) m = ⟨0, 0⟩) ∧
    (v.natAbs < U256Mod →
      NewDecimalFromBig (some v) m = ⟨(v % (U256Mod : ℤ)).toNat, m⟩) ∧
    NewDecimalFromBig none m = ⟨0, m⟩ := by
  refine ⟨fun h => ?_, fun h => ?_, ?_⟩
  · simp [NewDecimalFromBig, setFromBigU256, h, NewDecimalZero]
  · simp [NewDecimalFromBig, setFromBigU256, Nat.not_le.mpr h]
  · simp [NewDecimalFromBig, setFromBigU256, U256Mod]

theorem NewDecimalFromBig_overflow_nil_witness :
    (U256Mod ≤ (((2 ^ 256 : ℕ) : ℤ)).natAbs ∧
      NewDecimalFromBig (some ((2 ^ 256 : ℕ) : ℤ)) 9 = ⟨0, 0⟩) ∧
    ((-5 : ℤ).natAbs < U256Mod ∧
      NewDecimalFromBig (some (-5)) 7 = ⟨((-5 : ℤ) % (U256Mod : ℤ)).toNat, 7⟩) ∧
    NewDecimalFromBig none 9 = ⟨0, 9⟩ :=
  ⟨⟨by simp [U256Mod],
    (NewDecimalFromBig_overflow_nil (((2 ^ 256 : ℕ) : ℤ)) 9).1 (by simp [U256Mod])⟩,
   ⟨by norm_num [U256Mod],
    (NewDecimalFromBig_overflow_nil (-5) 7).2.1 (by norm_num [U256Mod])⟩,
   (NewDecimalFromBig_overflow_nil 0 9).2.2⟩

/-- The `splitOnDot` result is never empty: there is always at least one
field. -/
lemma splitOnDot_ne_nil (l : List Char) : splitOnDot l ≠ [] := by
  cases l with
  | nil => simp [splitOnDot]
  | cons c cs =>
    unfold splitOnDot
    split_ifs with h
    · simp
    · rcases h' : splitOnDot cs with _ | ⟨p, ps⟩ <;> simp

/-- On a failed `SetFromBig` tail the mantissa is untouched, and failure can
only come from the overflow flag, in which case the stored magnitude is the
input wrapped modulo `2 ^ 256`. -/
lemma applySetFromBig_false (d : Decimal) (v : ℤ) (mant : ℕ)
    (h : (applySetFromBig d v mant).2 = false) :
    (applySetFromBig d v mant).1.mantissa = d.mantissa ∧
    U256Mod ≤ v.natAbs ∧
    (applySetFromBig d v mant).1.value = (v % (U256Mod : ℤ)).toNat := by
  unfold applySetFromBig at h ⊢
  unfold setFromBigU256 at h ⊢
  split_ifs at h ⊢ with hc
  exact ⟨rfl, of_decide_eq_true hc, rfl⟩

set_option maxRecDepth 20000 in
/-- C4 (counterexample): parsing `10 ^ 78` (79 digits, exceeding `2 ^ 256`)
fails, yet the receiver's magnitude is overwritten with the wrapped value
`10 ^ 78 mod 2 ^ 256 ≠ 0`: overflow failure does mutate the target. -/
theorem FromString_overflow_mutates :
    (FromString ⟨0, 0⟩
      "1000000000000000000000000000000000000000000000000000000000000000000000000000000").2
        = false ∧
    (FromString ⟨0, 0⟩
      "1000000000000000000000000000000000000000000000000000000000000000000000000000000").1.value
        ≠ 0 := by
  refine ⟨by decide, by decide⟩

/-- C4 (amended): on any parse failure the mantissa is exactly what it was
before the call; every failure mode occurring before the digit string is
handed to `SetFromBig` (`parsedBigValue s = none`: multiple dots, an
over-long fractional field, a malformed digit string) leaves the receiver
fully unchanged; in the only remaining failure mode the parsed digit value
necessarily overflowed the 256-bit range and the magnitude is overwritten
with exactly that parsed value wrapped modulo `2 ^ 256`. -/
theorem FromString_failure_state (d : Decimal) (s : String)
    (h : (FromString d s).2 = false) :
    (FromString d s).1.mantissa = d.mantissa ∧
    (parsedBigValue s = none → (FromString d s).1 = d) ∧
    (∀ v : ℤ, parsedBigValue s = some v →
      U256Mod ≤ v.natAbs ∧
      (FromString d s).1.value = (v % (U256Mod : ℤ)).toNat) := by
  by_cases hs : s = ""
  · rw [hs] at h; simp [FromString] at h
  unfold FromString at h ⊢
  rw [if_neg hs] at h ⊢
  unfold parsedBigValue
  rw [if_neg hs]
  rcases hsplit : splitOnDot s.toList with _ | ⟨s0, _ | ⟨s1, _ | ⟨s2, rest3⟩⟩⟩
  · exact absurd hsplit (splitOnDot_ne_nil _)
  · rw [hsplit] at h
    simp only [fromParts, partsBigValue] at h ⊢
    rcases hbig : bigSetString s0 with _ | v
    · exact ⟨rfl, fun _ => rfl, fun v hv => by simp at hv⟩
    · simp only [hbig] at h
      obtain ⟨h1, h2, h3⟩ := applySetFromBig_false d v 0 h
      refine ⟨h1, fun hv => by simp at hv, fun v' hv' => ?_⟩
      injection hv' with he
      subst he
      exact ⟨h2, h3⟩
  · rw [hsplit] at h
    simp only [fromParts, partsBigValue] at h ⊢
    split_ifs at h ⊢ with hlen
    · exact ⟨rfl, fun _ => rfl, fun v hv => by simp at hv⟩
    · rcases hbig : bigSetString (s0 ++ dropTrailingZeros s1) with _ | v
      · exact ⟨rfl, fun _ => rfl, fun v hv => by simp at hv⟩
      · simp only [hbig] at h
        obtain ⟨h1, h2, h3⟩ :=
          applySetFromBig_false d v (dropTrailingZeros s1).length h
        refine ⟨h1, fun hv => by simp at hv, fun v' hv' => ?_⟩
        injection hv' with he
        subst he
        exact ⟨h2, h3⟩
  · exact ⟨rfl, fun _ => rfl, fun v hv => by simp [partsBigValue] at hv⟩

theorem FromString_failure_state_witness :
    (FromString ⟨7, 2⟩ "1.2.3").2 = false ∧
    ((FromString ⟨7, 2⟩ "1.2.3").1.mantissa = 2 ∧
      (parsedBigValue "1.2.3" = none → (FromString ⟨7, 2⟩ "1.2.3").1 = ⟨7, 2⟩) ∧
      (∀ v : ℤ, parsedBigValue "1.2.3" = some v →
        U256Mod ≤ v.natAbs ∧
        (FromString ⟨7, 2⟩ "1.2.3").1.value = (v % (U256Mod : ℤ)).toNat)) :=
  ⟨by decide, FromString_failure_state ⟨7, 2⟩ "1.2.3" (by decide)⟩

/-- Splitting on `'.'` yields one more field than there are dots. -/
lemma splitOnDot_length (l : List Char) :
    (splitOnDot l).length = l.count '.' + 1 := by
  induction l with
  | nil => simp [splitOnDot]
  | cons c cs ih =>
    unfold splitOnDot
    split_ifs with h
    · simp only [List.length_cons, ih, h, List.count_cons_self]
    · rcases h' : splitOnDot cs with _ | ⟨p, ps⟩
      · exact absurd h' (splitOnDot_ne_nil cs)
      · rw [h'] at ih
        simp only [List.length_cons] at ih ⊢
        rw [List.count_cons_of_ne (Ne.symm h)]
        omega

/-- Every character of the input other than `'.'` lands inside one of the
split fields. -/
lemma mem_splitOnDot (l : List Char) (c : Char) (hc : c ∈ l) (hne : c ≠ '.') :
    ∃ p ∈ splitOnDot l, c ∈ p := by
  induction l with
  | nil => simp at hc
  | cons a as ih =>
    unfold splitOnDot
    split_ifs with h
    · rcases List.mem_cons.mp hc with h1 | h1
      · exact absurd (h1.trans h) hne
      · obtain ⟨p, hp, hcp⟩ := ih h1
        exact ⟨p, List.mem_cons_of_mem _ hp, hcp⟩
    · rcases h' : splitOnDot as with _ | ⟨p, ps⟩
      · exact absurd h' (splitOnDot_ne_nil as)
      · rcases List.mem_cons.mp hc with h1 | h1
        · exact ⟨a :: p, List.mem_cons_self _ _, by simp [h1]⟩
        · obtain ⟨q, hq, hcq⟩ := ih h1
          rw [h'] at hq
          rcases List.mem_cons.mp hq with rfl | hq2
          · exact ⟨a :: q, List.mem_cons_self _ _, List.mem_cons_of_mem _ hcq⟩
          · exact ⟨q, List.mem_cons_of_mem _ hq2, hcq⟩

/-- A character the predicate rejects survives `dropWhile`. -/
lemma mem_dropWhile_of_ne (p : Char → Bool) (c : Char) (hp : p c = false) :
    ∀ xs : List Char, c ∈ xs → c ∈ xs.dropWhile p := by
  intro xs
  induction xs with
  | nil => simp
  | cons a as ih =>
    intro hc
    rw [List.dropWhile_cons]
    split_ifs with h
    · rcases List.mem_cons.mp hc with rfl | h1
      · rw [hp] at h; exact absurd h (by simp)
      · exact ih h1
    · exact hc

/-- A non-`'0'` character survives the trailing-zero stripping. -/
lemma mem_dropTrailingZeros (l : List Char) (c : Char) (hc : c ∈ l)
    (h0 : c ≠ '0') : c ∈ dropTrailingZeros l := by
  unfold dropTrailingZeros
  rw [List.mem_reverse]
  exact mem_dropWhile_of_ne _ c (by simp [h0]) _ (List.mem_reverse.mpr hc)

/-- `big.Int.SetString` fails whenever the digit string contains a character
that is neither an ASCII digit nor a (leading) sign. -/
lemma bigSetString_none (l : List Char) (c : Char) (hc : c ∈ l)
    (hd : c.isDigit = false) (hp : c ≠ '+') (hm : c ≠ '-') :
    bigSetString l = none := by
  have hall : ∀ ds : List Char, c ∈ ds → ds.all Char.isDigit = false := by
    intro ds hds
    cases hAll : ds.all Char.isDigit
    · rfl
    · have := List.all_eq_true.mp hAll c hds
      rw [hd] at this
      exact absurd this (by simp)
  have hdig : ∀ (ds : List Char) (neg : Bool), c ∈ ds →
      bigSetStringDigits ds neg = none := by
    intro ds neg hds
    have hne : ds.isEmpty = false := by
      cases ds
      · simp at hds
      · rfl
    unfold bigSetStringDigits
    simp only [hne, hall ds hds]
    rfl
  cases l with
  | nil => simp at hc
  | cons ch rest =>
    simp only [bigSetString]
    rcases List.mem_cons.mp hc with rfl | h2
    · rw [if_neg hm, if_neg hp]
      exact hdig _ false (List.mem_cons_self _ _)
    · split_ifs with h1 hplus
      · exact hdig _ true h2
      · exact hdig _ false h2
      · exact hdig _ false (List.mem_cons_of_mem _ h2)

/-- C6 (counterexample): the input `"-5"`, which contains a sign character,
is accepted by `FromString` (the claim requires it to be rejected); the
negative value is stored wrapped modulo `2 ^ 256`. -/
theorem FromString_sign_counterexample :
    (FromString ⟨0, 0⟩ "-5").2 = true ∧
    (FromString ⟨0, 0⟩ "-5").1 = ⟨2 ^ 256 - 5, 0⟩ := by
  refine ⟨by decide, by decide⟩

/-- C6 (amended): `FromString` rejects every input that contains a character
other than an ASCII decimal digit, `'.'`, `'+'` or `'-'`, and every input
with more than one `'.'`; inputs with a sign character can however be
accepted (the concatenated digit string is handed to the arbitrary-precision
integer parser, which allows a leading sign), so the accepted language is
strictly larger than the claimed grammar `[digits]['.' digits]`. -/
theorem FromString_rejects (d : Decimal) (s : String)
    (h : (∃ c ∈ s.toList, c.isDigit = false ∧ c ≠ '.' ∧ c ≠ '+' ∧ c ≠ '-') ∨
         2 ≤ s.toList.count '.') :
    (FromString d s).2 = false := by
  have hs : s ≠ "" := by
    rintro rfl
    rcases h with ⟨c, hc, _⟩ | h2
    · simp at hc
    · have : ("" : String).toList = [] := rfl
      rw [this] at h2
      simp at h2
  unfold FromString
  rw [if_neg hs]
  rcases h with ⟨c, hc, hd, hdot, hp, hm⟩ | hcount
  · rcases hsplit : splitOnDot s.toList with _ | ⟨s0, _ | ⟨s1, _ | ⟨s2, rest3⟩⟩⟩
    · exact absurd hsplit (splitOnDot_ne_nil _)
    · obtain ⟨p, hpmem, hcp⟩ := mem_splitOnDot s.toList c hc hdot
      rw [hsplit] at hpmem
      simp only [List.mem_singleton] at hpmem
      subst hpmem
      simp only [fromParts, bigSetString_none p c hcp hd hp hm]
    · obtain ⟨p, hpmem, hcp⟩ := mem_splitOnDot s.toList c hc hdot
      rw [hsplit] at hpmem
      simp only [fromParts]
      split_ifs with hlen
      · rfl
      · have hmem : c ∈ s0 ++ dropTrailingZeros s1 := by
          have h0 : c ≠ '0' := by
            rintro rfl
            simp [Char.isDigit] at hd
          rcases List.mem_cons.mp hpmem with rfl | hq
          · exact List.mem_append_left _ hcp
          · rcases List.mem_cons.mp hq with rfl | hq2
            · exact List.mem_append_right _ (mem_dropTrailingZeros _ c hcp h0)
            · simp at hq2
        rw [bigSetString_none _ c hmem hd hp hm]
    · rfl
  · have hlen3 : 3 ≤ (splitOnDot s.toList).length := by
      rw [splitOnDot_length]; omega
    rcases hsplit : splitOnDot s.toList with _ | ⟨s0, _ | ⟨s1, _ | ⟨s2, rest3⟩⟩⟩
    · exact absurd hsplit (splitOnDot_ne_nil _)
    · rw [hsplit] at hlen3; simp at hlen3
    · rw [hsplit] at hlen3; simp at hlen3
    · rfl

theorem FromString_rejects_witness :
    ((∃ c ∈ "x".toList, c.isDigit = false ∧ c ≠ '.' ∧ c ≠ '+' ∧ c ≠ '-') ∨
      2 ≤ "x".toList.count '.') ∧
    (FromString ⟨1, 1⟩ "x").2 = false :=
  ⟨Or.inl (by decide), FromString_rejects ⟨1, 1⟩ "x" (Or.inl (by decide))⟩

/-- When the exact product fits the 256-bit range, multiplying by the wrapped
power of ten and reducing is exact. -/
lemma alignedExact (v k : ℕ) (h : v * 10 ^ k < U256Mod) :
    v * ExpScale k % U256Mod = v * 10 ^ k := by
  rw [mul_ExpScale_mod]
  exact Nat.mod_eq_of_lt h

/-- Upward `Rescale` is the exact product with the power of ten as long as it
does not overflow the 256-bit range. -/
lemma Rescale_up_value (d : Decimal) (m : ℕ) (hm : d.mantissa ≤ m)
    (h : d.value * 10 ^ (m - d.mantissa) < U256Mod) :
    (Rescale d m).value = d.value * 10 ^ (m - d.mantissa) := by
  unfold Rescale
  split_ifs with h1 h2
  · simp [h1]
  · exact alignedExact d.value (m - d.mantissa) h
  · omega

/-- Under no-overflow hypotheses the aligned magnitudes are the exact products
with the scale-gap powers of ten. -/
lemma align_values (a b : Decimal)
    (ha : a.value * 10 ^ (max a.mantissa b.mantissa - a.mantissa) < U256Mod)
    (hb : b.value * 10 ^ (max a.mantissa b.mantissa - b.mantissa) < U256Mod) :
    (align a b).1.value = a.value * 10 ^ (max a.mantissa b.mantissa - a.mantissa) ∧
    (align a b).2.value = b.value * 10 ^ (max a.mantissa b.mantissa - b.mantissa) := by
  rw [align_eq]
  exact ⟨Rescale_up_value a _ (le_max_left _ _) ha,
         Rescale_up_value b _ (le_max_right _ _) hb⟩

/-- Comparing magnitudes aligned to the common (max) scale is the same as the
cross-multiplied comparison. -/
lemma nat_cross_lt (x y sa sb : ℕ) :
    x * 10 ^ (max sa sb - sa) < y * 10 ^ (max sa sb - sb) ↔
      x * 10 ^ sb < y * 10 ^ sa := by
  have h1 : (max sa sb - sa) + min sa sb = sb := by omega
  have h2 : (max sa sb - sb) + min sa sb = sa := by omega
  rw [← mul_lt_mul_right (pow_pos (by norm_num : (0:ℕ) < 10) (min sa sb)),
    mul_assoc, mul_assoc, ← pow_add, ← pow_add, h1, h2]

/-- Equality of magnitudes aligned to the common (max) scale is the same as
the cross-multiplied equality. -/
lemma nat_cross_eq (x y sa sb : ℕ) :
    x * 10 ^ (max sa sb - sa) = y * 10 ^ (max sa sb - sb) ↔
      x * 10 ^ sb = y * 10 ^ sa := by
  have h1 : (max sa sb - sa) + min sa sb = sb := by omega
  have h2 : (max sa sb - sb) + min sa sb = sa := by omega
  rw [← mul_left_inj' (pow_ne_zero (min sa sb) (by norm_num : (10:ℕ) ≠ 0)),
    mul_assoc, mul_assoc, ← pow_add, ← pow_add, h1, h2]

/-- The represented-value strict order is the cross-multiplied order. -/
lemma rat_div_lt (x y sa sb : ℕ) :
    (x : ℚ) / 10 ^ sa < (y : ℚ) / 10 ^ sb ↔ x * 10 ^ sb < y * 10 ^ sa := by
  rw [div_lt_div_iff₀ (by positivity) (by positivity)]
  exact_mod_cast Iff.rfl

/-- The represented-value equality is the cross-multiplied equality. -/
lemma rat_div_eq (x y sa sb : ℕ) :
    (x : ℚ) / 10 ^ sa = (y : ℚ) / 10 ^ sb ↔ x * 10 ^ sb = y * 10 ^ sa := by
  rw [div_eq_div_iff (by positivity) (by positivity)]
  exact_mod_cast Iff.rfl

/-- C8 (counterexample): comparison is not scale-invariant in general,
because the upward rescale wraps modulo `2 ^ 256`: the decimal `⟨2^255, 0⟩`
(value `2^255`) rescaled to scale 1 wraps to magnitude 0, so `Lt` reports it
smaller than `⟨1, 1⟩` (value `0.1`) even though its represented value is
vastly larger. -/
theorem Cmp_counterexample :
    Lt ⟨2 ^ 255, 0⟩ ⟨1, 1⟩ = true ∧
    ¬ (((2 ^ 255 : ℕ) : ℚ) / 10 ^ (0 : ℕ) < ((1 : ℕ) : ℚ) / 10 ^ (1 : ℕ)) := by
  constructor
  · decide
  · rw [rat_div_lt]
    norm_num

/-- C8 (amended): provided the upward rescale of each operand to the common
larger scale does not overflow the 256-bit range, `Eq`, `Gt` and `Lt` return
exactly the truth of the corresponding relation between the represented
values `magnitude / 10 ^ scale`, independent of the internal scales (and the
comparisons compute on defensive copies, leaving both operands untouched). -/
theorem Cmp_scale_invariant (a b : Decimal)
    (ha : a.value * 10 ^ (max a.mantissa b.mantissa - a.mantissa) < U256Mod)
    (hb : b.value * 10 ^ (max a.mantissa b.mantissa - b.mantissa) < U256Mod) :
    (Eq a b = true ↔
      (a.value : ℚ) / 10 ^ a.mantissa = (b.value : ℚ) / 10 ^ b.mantissa) ∧
    (Gt a b = true ↔
      (b.value : ℚ) / 10 ^ b.mantissa < (a.value : ℚ) / 10 ^ a.mantissa) ∧
    (Lt a b = true ↔
      (a.value : ℚ) / 10 ^ a.mantissa < (b.value : ℚ) / 10 ^ b.mantissa) := by
  obtain ⟨h1, h2⟩ := align_values a b ha hb
  refine ⟨?_, ?_, ?_⟩
  · rw [Eq, decide_eq_true_eq, h1, h2, nat_cross_eq, rat_div_eq]
  · rw [Gt, decide_eq_true_eq, h1, h2, rat_div_lt,
      max_comm a.mantissa b.mantissa, nat_cross_lt]
  · rw [Lt, decide_eq_true_eq, h1, h2, nat_cross_lt, rat_div_lt]

theorem Cmp_scale_invariant_witness :
    ((25 : ℕ) * 10 ^ (max 1 2 - 1) < U256Mod ∧
     (3 : ℕ) * 10 ^ (max 1 2 - 2) < U256Mod) ∧
    (Gt ⟨25, 1⟩ ⟨3, 2⟩ = true ↔
      ((3 : ℕ) : ℚ) / 10 ^ (2 : ℕ) < ((25 : ℕ) : ℚ) / 10 ^ (1 : ℕ)) :=
  ⟨⟨by norm_num [U256Mod], by norm_num [U256Mod]⟩,
   (Cmp_scale_invariant ⟨25, 1⟩ ⟨3, 2⟩ (by norm_num [U256Mod])
     (by norm_num [U256Mod])).2.1⟩

end DecimalGo
